import Mathlib

/-!
Shallow embedding of the compound-error derive macro (src/lib.rs, src/util.rs).

The macro consumes an already-parsed type definition together with its raw
attribute lists and either produces the generated artifacts (conversion impls,
the source accessor arms, the Display cases) or aborts with a compile error.
We embed the syn subset the macro inspects, the directive parser of
src/util.rs, and the generator loop of src/lib.rs, and give an evaluation
semantics to the generated match code so that the behavioural claims can be
stated about runs of the generated functions.
-/

set_option maxRecDepth 4096

namespace CompoundError

/-- One segment of a syn path; `arguments` stores the textual form of the
generic arguments when present (syn PathArguments, compared structurally). -/
structure PathSegment where
  ident : String
  arguments : Option String
deriving DecidableEq, Repr

/-- A syn Path: optional leading double colon plus segments. -/
structure Path where
  leadingColon : Bool
  segments : List PathSegment
deriving DecidableEq, Repr

/-- Mirrors syn Path.get_ident: the single identifier when the path has no
leading colon, exactly one segment and no generic arguments. -/
def Path.getIdent : Path → Option String
  | { leadingColon := false, segments := [{ ident := s, arguments := none }] } => some s
  | _ => none

/-- Mirrors syn Path.is_ident. -/
def Path.isIdent (p : Path) (s : String) : Bool :=
  p.getIdent == some s

/-- A syn TypePath (qualified-self stored textually when present). -/
structure TypePath where
  qself : Option String
  path : Path
deriving DecidableEq, Repr

/-- A syn literal: the macro only distinguishes string literals. -/
inductive Lit where
  | str (s : String)
  | other
deriving DecidableEq, Repr

/-- A syn NestedMeta: either a literal or one of the three Meta shapes
(bare path, parenthesized list, name-value pair). -/
inductive NestedMeta where
  | lit (l : Lit)
  | metaPath (p : Path)
  | metaList (p : Path) (nested : List NestedMeta)
  | metaNameValue (p : Path) (l : Lit)
deriving Repr

/-- A top-level syn Meta, the result of Attribute.parse_meta. -/
inductive Meta where
  | path (p : Path)
  | list (p : Path) (nested : List NestedMeta)
  | nameValue (p : Path) (l : Lit)
deriving Repr

/-- A raw attribute: its path and the result of parse_meta, where `none`
models a parse failure. -/
structure Attribute where
  path : Path
  meta : Option Meta
deriving Repr

/-- Mirrors AttrArg of src/util.rs. -/
structure AttrArg where
  path : Path
  values : List NestedMeta
deriving Repr

/-- Mirrors AttrArgsError of src/util.rs, one constructor per failure shape,
each carrying the offending token. -/
inductive AttrArgsError where
  | invalidArg (p : Path)
  | litArg (l : Lit)
  | dupliateArg (p : Path)
  | noMeta (attrPath : Path)
  | noNestedMeta (p : Path) (l : Lit)
deriving Repr

/-- The argument map built by attr_args, as an insertion-ordered association
list standing for the HashMap of src/util.rs. -/
abbrev ArgsMap := List (String × AttrArg)

/-- Lookup in the argument map (HashMap.get). -/
def lookupArg (args : ArgsMap) (k : String) : Option AttrArg :=
  (args.find? (fun e => e.1 == k)).map (fun e => e.2)

/-- Insertion into the argument map (HashMap.insert for a fresh key). -/
def insertArg (args : ArgsMap) (k : String) (a : AttrArg) : ArgsMap :=
  args ++ [(k, a)]

/-- Removal from the argument map (HashMap.remove), returning the removed
entry and the remaining map. -/
def removeArg (args : ArgsMap) (k : String) : Option AttrArg × ArgsMap :=
  (lookupArg args k, args.filter (fun e => e.1 != k))

/-- The inner loop of attr_args over the nested entries of one matching
attribute: a first-level literal is rejected, a meta entry must be a bare
known key (checked against the allow-list, duplicates rejected) and its
values are the empty list, the parenthesized list, or the single literal of
a name-value pair. -/
def attrArgsNested (known : List String) : ArgsMap → List NestedMeta → Except AttrArgsError ArgsMap
  | args, [] => .ok args
  | _, .lit l :: _ => .error (.litArg l)
  | args, .metaPath p :: rest =>
    match p.getIdent with
    | none => .error (.invalidArg p)
    | some id =>
      if known.contains id then
        if (lookupArg args id).isSome then .error (.dupliateArg p)
        else attrArgsNested known (insertArg args id { path := p, values := [] }) rest
      else .error (.invalidArg p)
  | args, .metaList p nested :: rest =>
    match p.getIdent with
    | none => .error (.invalidArg p)
    | some id =>
      if known.contains id then
        if (lookupArg args id).isSome then .error (.dupliateArg p)
        else attrArgsNested known (insertArg args id { path := p, values := nested }) rest
      else .error (.invalidArg p)
  | args, .metaNameValue p l :: rest =>
    match p.getIdent with
    | none => .error (.invalidArg p)
    | some id =>
      if known.contains id then
        if (lookupArg args id).isSome then .error (.dupliateArg p)
        else attrArgsNested known (insertArg args id { path := p, values := [NestedMeta.lit l] }) rest
      else .error (.invalidArg p)

/-- The outer loop of attr_args over the raw attribute list: attributes whose
path is not the required group name are skipped, a failed parse_meta is a
NoMeta error, a top-level name-value attribute is a NoNestedMeta error, a bare
path attribute contributes nothing, and a list attribute is folded through
attrArgsNested into the accumulated map. -/
def attrArgsGo (requiredKey : String) (known : List String) : ArgsMap → List Attribute → Except AttrArgsError ArgsMap
  | args, [] => .ok args
  | args, attr :: rest =>
    if attr.path.getIdent == some requiredKey then
      match attr.meta with
      | none => .error (.noMeta attr.path)
      | some (.nameValue p l) => .error (.noNestedMeta p l)
      | some (.path _) => attrArgsGo requiredKey known args rest
      | some (.list _ nested) =>
        match attrArgsNested known args nested with
        | .error e => .error e
        | .ok args2 => attrArgsGo requiredKey known args2 rest
    else attrArgsGo requiredKey known args rest

/-- Embeds attr_args of src/util.rs. -/
def attr_args (attrs : List Attribute) (requiredKey : String) (known : List String) : Except AttrArgsError ArgsMap :=
  attrArgsGo requiredKey known [] attrs

/-- Embeds flag of src/util.rs: a present key with a non-empty value list is
an error (carrying the offending path), otherwise presence decides the flag. -/
def flag (args : ArgsMap) (k : String) : Except Path Bool :=
  match lookupArg args k with
  | some a => if a.values.isEmpty then .ok true else .error a.path
  | none => .ok false

/-- A field type: the macro only accepts Type.Path payloads. -/
inductive Ty where
  | typePath (p : Path)
  | other
deriving Repr

/-- The fields of an enum variant (syn Fields). -/
inductive Fields where
  | unnamed (tys : List Ty)
  | named
  | unit
deriving Repr

/-- An enum variant of the derive input. -/
structure Variant where
  ident : String
  fields : Fields
  attrs : List Attribute
deriving Repr

/-- The data of the derive input (syn Data). -/
inductive InputData where
  | enumData (variants : List Variant)
  | structData
  | unionData
deriving Repr

/-- The derive input: type name, identifiers of its generic type parameters,
its raw attributes and its data. -/
structure DeriveInput where
  ident : String
  typeParams : List String
  attrs : List Attribute
  data : InputData
deriving Repr

/-- Mirrors PathOrLit of src/lib.rs: an inline_from target given as a bare
path or as a string literal parsed into a type path. Grouping of flattening
conversions keys on the derived structural equality of this type. -/
inductive PathOrLit where
  | path (p : Path)
  | lit (tp : TypePath)
deriving DecidableEq, Repr

/-- Strips the generic arguments from the last segment of a path. -/
def stripLastArguments : List PathSegment → List PathSegment
  | [] => []
  | [s] => [{ s with arguments := none }]
  | s :: rest => s :: stripLastArguments rest

/-- Mirrors the path method of PathOrLit: the contained path with the generic
arguments stripped from its last segment. -/
def PathOrLit.basePath : PathOrLit → Path
  | .path p => { p with segments := stripLastArguments p.segments }
  | .lit tp => { tp.path with segments := stripLastArguments tp.path.segments }

/-- One arm of the generated Error.source match; a variant with no_source
contributes no arm and falls through to the trailing None case. -/
inductive SourceArm where
  | someArm (variantIdent : String) (convert : Option Path)
  | transparentArm (variantIdent : String)
deriving Repr

/-- What the branch line of a framed Display case shows. -/
inductive BranchDisplay where
  | payload
  | literalName (s : String)
deriving Repr

/-- One case of the generated Display match. -/
inductive DisplayCase where
  | transparentCase (variantIdent : String)
  | framedCase (variantIdent : String) (branch : BranchDisplay)
deriving Repr

/-- The compile errors emitted by derive_compound_error, one constructor per
error site of src/lib.rs. -/
inductive CompileError where
  | attrErr (e : AttrArgsError)
  | titleArity
  | titleNotString
  | descriptionArity
  | descriptionNotString
  | flagHasArgs (k : String)
  | variantShape (ident : String)
  | variantFieldNotPath (ident : String)
  | inlineFromBadArg
  | convertSourceArity
  | convertSourceNotPath
  | onlyEnums
deriving Repr

/-- The allow-list for type-level directives. -/
def toplevelKeys : List String :=
  [("title" : String), ("description"), ("skip_display"), ("skip_error"), ("transparent")]

/-- The allow-list for variant-level directives. -/
def variantKeys : List String :=
  [("inline_from" : String), ("skip_single_from"), ("no_source"), ("convert_source"), ("transparent")]

/-- Extracts the single unnamed payload field of a variant and requires it to
be a plain type path, as the variant loop of src/lib.rs does. -/
def getPayload (v : Variant) : Except CompileError Path :=
  match v.fields with
  | .unnamed [t] =>
    match t with
    | .typePath p => .ok p
    | .other => .error (.variantFieldNotPath v.ident)
  | _ => .error (.variantShape v.ident)

/-- Removes and validates the title directive: exactly one string literal,
defaulting to the type name when absent. -/
def getTitle (args : ArgsMap) (ident : String) : Except CompileError (String × ArgsMap) :=
  match removeArg args ("title") with
  | (some a, rest) =>
    match a.values with
    | [NestedMeta.lit (Lit.str s)] => .ok (s, rest)
    | [_] => .error .titleNotString
    | _ => .error .titleArity
  | (none, rest) => .ok (ident, rest)

/-- Removes and validates the description directive: exactly one string
literal, rendered with the parenthesized-space framing, empty when absent. -/
def getDescription (args : ArgsMap) : Except CompileError (String × ArgsMap) :=
  match removeArg args ("description") with
  | (some a, rest) =>
    match a.values with
    | [NestedMeta.lit (Lit.str s)] => .ok (" (" ++ s ++ ")", rest)
    | [_] => .error .descriptionNotString
    | _ => .error .descriptionArity
  | (none, rest) => .ok ("", rest)

/-- The flag macro of src/lib.rs: a flag whose directive carries arguments is
a compile error naming the key. -/
def flagE (args : ArgsMap) (k : String) : Except CompileError Bool :=
  match flag args k with
  | .ok b => .ok b
  | .error _ => .error (.flagHasArgs k)

/-- Parses the values of an inline_from directive into grouping keys: a bare
path stays a path key, a string literal must parse as a type path, anything
else is rejected. -/
def parseInlineKeys (parseTP : String → Option TypePath) : List NestedMeta → Except CompileError (List PathOrLit)
  | [] => .ok []
  | NestedMeta.metaPath p :: rest =>
    match parseInlineKeys parseTP rest with
    | .error e => .error e
    | .ok ks => .ok (PathOrLit.path p :: ks)
  | NestedMeta.lit (Lit.str s) :: rest =>
    match parseTP s with
    | none => .error .inlineFromBadArg
    | some tp =>
      match parseInlineKeys parseTP rest with
      | .error e => .error e
      | .ok ks => .ok (PathOrLit.lit tp :: ks)
  | _ :: _ => .error .inlineFromBadArg

/-- Everything one iteration of the variant loop of src/lib.rs contributes:
the resolved per-variant options together with the artifacts the iteration
pushes into the surrounding accumulators. -/
structure VariantDelta where
  ident : String
  payloadPath : Path
  inlineKeys : List PathOrLit
  skipSingleFrom : Bool
  transparent : Bool
  noSource : Bool
  convertSource : Option Path
  fromStruct : Option (Path × String)
  sourceArm : Option SourceArm
  displayCase : DisplayCase
deriving Repr

/-- One iteration of the variant loop: payload extraction, directive parsing,
inline_from key collection, flag resolution, the single-value conversion
decision, and the construction of the source arm and the Display case. -/
def variantStep (parseTP : String → Option TypePath) (tEnum : Bool) (tps : List String) (v : Variant) : Except CompileError VariantDelta :=
  match getPayload v with
  | .error e => .error e
  | .ok payloadPath =>
  match attr_args v.attrs ("compound_error") variantKeys with
  | .error e => .error (.attrErr e)
  | .ok args0 =>
  match (match (removeArg args0 ("inline_from")).1 with
         | some a => parseInlineKeys parseTP a.values
         | none => .ok []) with
  | .error e => .error e
  | .ok inlineKeys =>
  match flag (removeArg args0 ("inline_from")).2 ("skip_single_from") with
  | .error _ => .error (.flagHasArgs ("skip_single_from"))
  | .ok skipSingleFrom =>
  match flag (removeArg args0 ("inline_from")).2 ("transparent") with
  | .error _ => .error (.flagHasArgs ("transparent"))
  | .ok transparentLocal =>
  match flag (removeArg args0 ("inline_from")).2 ("no_source") with
  | .error _ => .error (.flagHasArgs ("no_source"))
  | .ok noSource =>
  let transparent := transparentLocal || tEnum
  let fromStruct :=
    if !skipSingleFrom && !(tps.any (fun t => payloadPath.isIdent t)) then
      some (payloadPath, v.ident)
    else none
  if noSource then
    .ok { ident := v.ident, payloadPath := payloadPath, inlineKeys := inlineKeys,
          skipSingleFrom := skipSingleFrom, transparent := transparent,
          noSource := true, convertSource := none, fromStruct := fromStruct,
          sourceArm := none,
          displayCase :=
            if transparent then DisplayCase.transparentCase v.ident
            else DisplayCase.framedCase v.ident (BranchDisplay.literalName v.ident) }
  else
    match (removeArg (removeArg args0 ("inline_from")).2 ("convert_source")).1 with
    | some a =>
      (match a.values with
       | [NestedMeta.metaPath p] =>
         .ok { ident := v.ident, payloadPath := payloadPath, inlineKeys := inlineKeys,
               skipSingleFrom := skipSingleFrom, transparent := transparent,
               noSource := false, convertSource := some p, fromStruct := fromStruct,
               sourceArm := some
                 (if transparent then SourceArm.transparentArm v.ident
                  else SourceArm.someArm v.ident (some p)),
               displayCase :=
                 if transparent then DisplayCase.transparentCase v.ident
                 else DisplayCase.framedCase v.ident BranchDisplay.payload }
       | [_] => .error .convertSourceNotPath
       | _ => .error .convertSourceArity)
    | none =>
      .ok { ident := v.ident, payloadPath := payloadPath, inlineKeys := inlineKeys,
            skipSingleFrom := skipSingleFrom, transparent := transparent,
            noSource := false, convertSource := none, fromStruct := fromStruct,
            sourceArm := some
              (if transparent then SourceArm.transparentArm v.ident
               else SourceArm.someArm v.ident none),
            displayCase :=
              if transparent then DisplayCase.transparentCase v.ident
              else DisplayCase.framedCase v.ident BranchDisplay.payload }

/-- The accumulators threaded through the variant loop of src/lib.rs. -/
structure LoopState where
  fromEnums : List (PathOrLit × List String)
  fromStructs : List (Path × String)
  sourceArms : List SourceArm
  displayCases : List DisplayCase
deriving Repr

/-- The HashMap entry-or-default-push operation on the flattening groups:
append the variant to the group of the key when present, otherwise open a new
group. -/
def updateOrInsert (m : List (PathOrLit × List String)) (k : PathOrLit) (ident : String) : List (PathOrLit × List String) :=
  if m.any (fun e => e.1 == k) then
    m.map (fun e => if e.1 == k then (e.1, e.2 ++ [ident]) else e)
  else m ++ [(k, [ident])]

/-- Applies the contributions of one variant iteration to the accumulators. -/
def applyDelta (st : LoopState) (d : VariantDelta) : LoopState :=
  { fromEnums := d.inlineKeys.foldl (fun m k => updateOrInsert m k d.ident) st.fromEnums,
    fromStructs := st.fromStructs ++ (match d.fromStruct with | some e => [e] | none => []),
    sourceArms := st.sourceArms ++ (match d.sourceArm with | some a => [a] | none => []),
    displayCases := st.displayCases ++ [d.displayCase] }

/-- The variant loop: each variant is processed in order, aborting on the
first compile error. -/
def processVariants (parseTP : String → Option TypePath) (tEnum : Bool) (tps : List String) : LoopState → List Variant → Except CompileError LoopState
  | st, [] => .ok st
  | st, v :: vs =>
    match variantStep parseTP tEnum tps v with
    | .error e => .error e
    | .ok d => processVariants parseTP tEnum tps (applyDelta st d) vs

/-- The per-variant contributions alone, in variant order; the loop is the
fold of applyDelta over them. -/
def stepsOf (parseTP : String → Option TypePath) (tEnum : Bool) (tps : List String) : List Variant → Except CompileError (List VariantDelta)
  | [] => .ok []
  | v :: vs =>
    match variantStep parseTP tEnum tps v with
    | .error e => .error e
    | .ok d =>
      match stepsOf parseTP tEnum tps vs with
      | .error e => .error e
      | .ok ds => .ok (d :: ds)

/-- The resolved artifacts of one derive run. -/
structure GenOutput where
  title : String
  description : String
  skipDisplay : Bool
  skipError : Bool
  structMode : Bool
  fromStructs : List (Path × String)
  fromEnums : List (PathOrLit × List String)
  sourceArms : List SourceArm
  displayCases : List DisplayCase
deriving Repr

/-- Embeds derive_compound_error of src/lib.rs: type-level directive parsing,
title and description resolution, the skip flags, and for an enum the variant
loop producing the conversion tables and the match arms of the generated
source accessor and Display impl. -/
def derive_compound_error (parseTP : String → Option TypePath) (inp : DeriveInput) : Except CompileError GenOutput :=
  match attr_args inp.attrs ("compound_error") toplevelKeys with
  | .error e => .error (.attrErr e)
  | .ok toplevel0 =>
  match getTitle toplevel0 inp.ident with
  | .error e => .error e
  | .ok (title, toplevel1) =>
  match getDescription toplevel1 with
  | .error e => .error e
  | .ok (description, toplevel2) =>
  match flag toplevel2 ("skip_display") with
  | .error _ => .error (.flagHasArgs ("skip_display"))
  | .ok skipDisplay =>
  match flag toplevel2 ("skip_error") with
  | .error _ => .error (.flagHasArgs ("skip_error"))
  | .ok skipError =>
  match inp.data with
  | .enumData variants =>
    (match flag toplevel2 ("transparent") with
     | .error _ => .error (.flagHasArgs ("transparent"))
     | .ok tEnum =>
       match processVariants parseTP tEnum inp.typeParams ⟨[], [], [], []⟩ variants with
       | .error e => .error e
       | .ok st =>
         .ok { title := title, description := description, skipDisplay := skipDisplay,
               skipError := skipError, structMode := false,
               fromStructs := st.fromStructs, fromEnums := st.fromEnums,
               sourceArms := st.sourceArms, displayCases := st.displayCases })
  | .structData =>
    .ok { title := title, description := description, skipDisplay := skipDisplay,
          skipError := skipError, structMode := true,
          fromStructs := [], fromEnums := [], sourceArms := [], displayCases := [] }
  | .unionData => .error .onlyEnums

/-- An abstract runtime error value as the generated code observes it: what
its own Display renders and what its own Error.source returns. -/
inductive ErrValue where
  | mk (display : String) (source : Option ErrValue)

/-- The Display rendering of an error value. -/
def ErrValue.display : ErrValue → String
  | .mk d _ => d

/-- The Error.source result of an error value. -/
def ErrValue.source : ErrValue → Option ErrValue
  | .mk _ s => s

/-- Applies the declared convert_source transformation, interpreting the
named function through the environment. -/
def applyConv (convEnv : Path → ErrValue → ErrValue) : Option Path → ErrValue → ErrValue
  | none, x => x
  | some p, x => convEnv p x

/-- The variant a source arm matches. -/
def SourceArm.ident : SourceArm → String
  | .someArm i _ => i
  | .transparentArm i => i

/-- The variant a Display case matches. -/
def DisplayCase.ident : DisplayCase → String
  | .transparentCase i => i
  | .framedCase i _ => i

/-- Runs the generated source accessor on a composite value holding the given
variant and payload: the first arm whose pattern names the variant fires, and
the trailing catch-all returns None. -/
def runSource (convEnv : Path → ErrValue → ErrValue) (arms : List SourceArm) (variantIdent : String) (x : ErrValue) : Option ErrValue :=
  match arms.find? (fun a => a.ident == variantIdent) with
  | some (SourceArm.someArm _ conv) => some (applyConv convEnv conv x)
  | some (SourceArm.transparentArm _) => x.source
  | none => none

/-- Runs the generated Display impl of an enum on a composite value holding
the given variant and payload: a transparent case forwards to the payload
rendering, a framed case writes the header line followed by the marked branch
line, and the trailing catch-all writes nothing. -/
def runDisplay (title description : String) (cases : List DisplayCase) (variantIdent : String) (x : ErrValue) : String :=
  match cases.find? (fun c => c.ident == variantIdent) with
  | some (DisplayCase.transparentCase _) => x.display
  | some (DisplayCase.framedCase _ b) =>
    title ++ description ++ (":\n") ++ ("  └ ") ++
      (match b with
       | BranchDisplay.payload => x.display
       | BranchDisplay.literalName s => s)
  | none => ""

/-- Runs the generated flattening conversion of one group on a value of the
referenced type R holding the given R variant and payload: each local variant
in the group is one arm matching the same-named R variant, and the match has
no other arms. -/
def runInlineFrom (locals : List String) (rv : String × ErrValue) : Option (String × ErrValue) :=
  match locals.find? (fun a => a == rv.1) with
  | some a => some (a, rv.2)
  | none => none

/-- Runs the generated single-value conversion of a variant: the payload is
wrapped in the named variant. -/
def fromSingle (variantIdent : String) (x : ErrValue) : String × ErrValue :=
  (variantIdent, x)

/-- The group of local variants registered for a flattening key. -/
def groupLookup (k : PathOrLit) (m : List (PathOrLit × List String)) : List String :=
  match m.find? (fun e => e.1 == k) with
  | some e => e.2
  | none => []

/-- The local variants the variant loop registers for a key, in loop order,
one occurrence per listing of the key in an inline_from directive. -/
def groupContrib (k : PathOrLit) : List VariantDelta → List String
  | [] => []
  | d :: ds => (d.inlineKeys.filter (fun k2 => k2 == k)).map (fun _ => d.ident) ++ groupContrib k ds

/-- Whether the type-level directives of the input set the transparent flag,
recomputed directly from the raw attributes. -/
def transparentEnumOf (inp : DeriveInput) : Bool :=
  match attr_args inp.attrs ("compound_error") toplevelKeys with
  | .ok args => (lookupArg args ("transparent")).isSome
  | .error _ => false

/-- Whether a type-level directive with the given key is present on the
input. -/
def hasToplevelArg (inp : DeriveInput) (k : String) : Bool :=
  match attr_args inp.attrs ("compound_error") toplevelKeys with
  | .ok args => (lookupArg args k).isSome
  | .error _ => false

/-- Whether the variant sets skip_single_from, recomputed directly from its
raw attributes. -/
def skipSingleFromOf (v : Variant) : Bool :=
  match attr_args v.attrs ("compound_error") variantKeys with
  | .ok args => (lookupArg args ("skip_single_from")).isSome
  | .error _ => false

/-- Whether the payload type path of the variant is exactly one of the
generic type parameters of the enclosing type. -/
def payloadIsGenericParam (tps : List String) (v : Variant) : Bool :=
  match getPayload v with
  | .ok p => tps.any (fun t => p.isIdent t)
  | .error _ => false

/-- A variant is eligible for a generated single-value conversion when it did
not set skip_single_from and its payload is not a generic parameter of the
enclosing type. -/
def singleFromEligible (tps : List String) (v : Variant) : Bool :=
  !skipSingleFromOf v && !payloadIsGenericParam tps v

theorem lookupArg_cons_ne {e : String × AttrArg} {rest : ArgsMap} {k : String}
    (h : (e.1 == k) = false) : lookupArg (e :: rest) k = lookupArg rest k := by
  simp [lookupArg, List.find?_cons, h]

theorem lookupArg_cons_eq {e : String × AttrArg} {rest : ArgsMap} {k : String}
    (h : (e.1 == k) = true) : lookupArg (e :: rest) k = some e.2 := by
  simp [lookupArg, List.find?_cons, h]

theorem lookupArg_filter_ne (args : ArgsMap) (k k2 : String) (h : k ≠ k2) :
    lookupArg (args.filter (fun e => e.1 != k2)) k = lookupArg args k := by
  induction args with
  | nil => rfl
  | cons e rest ih =>
    rw [List.filter_cons]
    by_cases h2 : e.1 = k2
    · have hne : (e.1 == k) = false := by
        rw [h2]
        exact beq_eq_false_iff_ne.mpr (fun hh => h hh.symm)
      rw [if_neg (by simp [h2]), ih, lookupArg_cons_ne hne]
    · rw [if_pos (by simp [h2])]
      by_cases hk : e.1 = k
      · rw [lookupArg_cons_eq (beq_iff_eq.mpr hk), lookupArg_cons_eq (beq_iff_eq.mpr hk)]
      · rw [lookupArg_cons_ne (beq_eq_false_iff_ne.mpr hk),
          lookupArg_cons_ne (beq_eq_false_iff_ne.mpr hk), ih]

theorem lookupArg_removeArg_ne (args : ArgsMap) (k k2 : String) (h : k ≠ k2) :
    lookupArg (removeArg args k2).2 k = lookupArg args k := by
  simpa [removeArg] using lookupArg_filter_ne args k k2 h

theorem flag_ok_isSome {args : ArgsMap} {k : String} {b : Bool} (h : flag args k = .ok b) :
    b = (lookupArg args k).isSome := by
  cases hl : lookupArg args k with
  | none =>
    simp [flag, hl] at h
    simp [h]
  | some a =>
    simp only [flag, hl] at h
    split at h
    · cases h
      rfl
    · cases h

theorem flagE_ok_isSome {args : ArgsMap} {k : String} {b : Bool} (h : flagE args k = .ok b) :
    b = (lookupArg args k).isSome := by
  unfold flagE at h
  cases hf : flag args k with
  | ok b2 =>
    rw [hf] at h
    cases h
    exact flag_ok_isSome hf
  | error p => rw [hf] at h; cases h

/-- Internal characterization of a successful variant iteration: the resolved
fields determine the generated source arm, Display case and single-value
conversion entry exactly as the loop body of src/lib.rs does, and the
resolved flags agree with the recomputations from the raw attributes. -/
theorem variantStep_ok {parseTP : String → Option TypePath} {tEnum : Bool} {tps : List String} {v : Variant} {d : VariantDelta}
    (h : variantStep parseTP tEnum tps v = .ok d) :
    d.ident = v.ident ∧
    d.sourceArm = (if d.noSource then none else some
      (if d.transparent then SourceArm.transparentArm v.ident
       else SourceArm.someArm v.ident d.convertSource)) ∧
    d.displayCase = (if d.transparent then DisplayCase.transparentCase v.ident
      else DisplayCase.framedCase v.ident
        (if d.noSource then BranchDisplay.literalName v.ident else BranchDisplay.payload)) ∧
    d.fromStruct.isSome = singleFromEligible tps v ∧
    getPayload v = .ok d.payloadPath := by
  unfold variantStep at h
  split at h
  · cases h
  case _ payloadPath hpay =>
  split at h
  · cases h
  case _ args0 hargs =>
  split at h
  · cases h
  case _ inlineKeys hinl =>
  split at h
  · cases h
  case _ skipSingleFrom hssf =>
  split at h
  · cases h
  case _ transparentLocal htl =>
  split at h
  · cases h
  case _ noSource hns =>
  have hssf2 : skipSingleFrom = skipSingleFromOf v := by
    rw [flag_ok_isSome hssf, skipSingleFromOf, hargs,
      lookupArg_removeArg_ne args0 ("skip_single_from") ("inline_from") (by decide)]
  have heligible : (if !skipSingleFrom && !(tps.any (fun t => payloadPath.isIdent t)) then
      some (payloadPath, v.ident) else none).isSome = singleFromEligible tps v := by
    rw [singleFromEligible, ← hssf2, payloadIsGenericParam, hpay]
    by_cases hc : (!skipSingleFrom && !(tps.any (fun t => payloadPath.isIdent t))) = true
    · simp [hc]
    · simp only [Bool.not_eq_true] at hc
      simp [hc]
  simp only at h
  split at h
  · cases h
    refine ⟨rfl, rfl, rfl, heligible, hpay⟩
  · split at h
    · split at h
      · cases h
        refine ⟨rfl, rfl, rfl, heligible, hpay⟩
      · cases h
      · cases h
    · cases h
      refine ⟨rfl, rfl, rfl, heligible, hpay⟩

theorem processVariants_ok {parseTP : String → Option TypePath} {tEnum : Bool} {tps : List String}
    {st st2 : LoopState} {vs : List Variant}
    (h : processVariants parseTP tEnum tps st vs = .ok st2) :
    ∃ ds, stepsOf parseTP tEnum tps vs = .ok ds ∧ st2 = ds.foldl applyDelta st := by
  induction vs generalizing st with
  | nil =>
    refine ⟨[], rfl, ?_⟩
    simp [processVariants] at h
    simp [h]
  | cons v vs ih =>
    unfold processVariants at h
    split at h
    · cases h
    case _ d hd =>
      obtain ⟨ds, hds, hst⟩ := ih h
      exact ⟨d :: ds, by simp [stepsOf, hd, hds], by simp [hst]⟩

theorem foldl_applyDelta_fromStructs (ds : List VariantDelta) (st : LoopState) :
    (ds.foldl applyDelta st).fromStructs = st.fromStructs ++ ds.filterMap (fun d => d.fromStruct) := by
  induction ds generalizing st with
  | nil => simp
  | cons d ds ih =>
    rw [List.foldl_cons, ih]
    cases hd : d.fromStruct <;> simp [applyDelta, hd, List.filterMap_cons]

theorem foldl_applyDelta_sourceArms (ds : List VariantDelta) (st : LoopState) :
    (ds.foldl applyDelta st).sourceArms = st.sourceArms ++ ds.filterMap (fun d => d.sourceArm) := by
  induction ds generalizing st with
  | nil => simp
  | cons d ds ih =>
    rw [List.foldl_cons, ih]
    cases hd : d.sourceArm <;> simp [applyDelta, hd, List.filterMap_cons]

theorem foldl_applyDelta_displayCases (ds : List VariantDelta) (st : LoopState) :
    (ds.foldl applyDelta st).displayCases = st.displayCases ++ ds.map (fun d => d.displayCase) := by
  induction ds generalizing st with
  | nil => simp
  | cons d ds ih =>
    rw [List.foldl_cons, ih]
    simp [applyDelta]

theorem groupLookup_nil (k : PathOrLit) : groupLookup k [] = [] := rfl

theorem groupLookup_cons_eq {e : PathOrLit × List String} {rest : List (PathOrLit × List String)}
    {k2 : PathOrLit} (h : (e.1 == k2) = true) : groupLookup k2 (e :: rest) = e.2 := by
  simp [groupLookup, List.find?_cons, h]

theorem groupLookup_cons_ne {e : PathOrLit × List String} {rest : List (PathOrLit × List String)}
    {k2 : PathOrLit} (h : (e.1 == k2) = false) : groupLookup k2 (e :: rest) = groupLookup k2 rest := by
  simp [groupLookup, List.find?_cons, h]

theorem groupLookup_map_update (m : List (PathOrLit × List String)) (k k2 : PathOrLit) (id : String) :
    groupLookup k2 (m.map (fun e => if e.1 == k then (e.1, e.2 ++ [id]) else e)) =
      (if k2 = k ∧ m.any (fun e => e.1 == k2) then groupLookup k2 m ++ [id] else groupLookup k2 m) := by
  induction m with
  | nil => simp [groupLookup]
  | cons e rest ih =>
    rw [List.map_cons]
    by_cases he : e.1 = k2
    · have heq : (e.1 == k2) = true := beq_iff_eq.mpr he
      by_cases hk : k2 = k
      · have hek : (e.1 == k) = true := beq_iff_eq.mpr (he.trans hk)
        rw [if_pos hek]
        rw [groupLookup_cons_eq (by simpa using heq)]
        rw [if_pos ⟨hk, by simp [List.any_cons, heq]⟩]
        rw [groupLookup_cons_eq heq]
      · have hek : (e.1 == k) = false := by
          rw [he]
          exact beq_eq_false_iff_ne.mpr hk
        rw [if_neg (by simp [hek])]
        rw [groupLookup_cons_eq heq]
        rw [if_neg (fun hc => hk hc.1)]
        rw [groupLookup_cons_eq heq]
    · have hne : (e.1 == k2) = false := beq_eq_false_iff_ne.mpr he
      have hfst : ((if e.1 == k then (e.1, e.2 ++ [id]) else e).1 == k2) = false := by
        by_cases hek : e.1 = k
        · rw [if_pos (by simp [hek])]
          exact hne
        · rw [if_neg (by simp [hek])]
          exact hne
      rw [groupLookup_cons_ne hfst, groupLookup_cons_ne hne, ih, List.any_cons, hne]
      simp only [Bool.false_or]

theorem groupLookup_updateOrInsert (m : List (PathOrLit × List String)) (k k2 : PathOrLit) (id : String) :
    groupLookup k2 (updateOrInsert m k id) =
      (if k2 = k then groupLookup k2 m ++ [id] else groupLookup k2 m) := by
  unfold updateOrInsert
  by_cases hany : m.any (fun e => e.1 == k) = true
  · rw [if_pos hany, groupLookup_map_update]
    by_cases hk : k2 = k
    · rw [if_pos hk]
      rw [if_pos ⟨hk, by rw [hk]; exact hany⟩]
    · rw [if_neg hk, if_neg (fun hc => hk hc.1)]
  · rw [if_neg hany]
    have hall : ∀ e ∈ m, (e.1 == k) = false := by
      intro e he
      by_contra hc
      exact hany (List.any_eq_true.mpr ⟨e, he, by simpa using hc⟩)
    by_cases hk : k2 = k
    · subst hk
      have hnone : m.find? (fun e => e.1 == k2) = none := by
        apply List.find?_eq_none.mpr
        intro e he
        simp [hall e he]
      rw [if_pos rfl]
      have hgl : groupLookup k2 m = [] := by
        simp [groupLookup, hnone]
      rw [hgl]
      simp [groupLookup, List.find?_append, hnone, List.find?_cons]
    · rw [if_neg hk]
      have hlast : (((k, [id]) : PathOrLit × List String).1 == k2) = false :=
        beq_eq_false_iff_ne.mpr (fun hc => hk hc.symm)
      show groupLookup k2 (m ++ [(k, [id])]) = groupLookup k2 m
      unfold groupLookup
      rw [List.find?_append]
      cases hfind : m.find? (fun e => e.1 == k2) with
      | some e => simp [Option.or]
      | none => simp [Option.or, List.find?_cons, hlast]

theorem groupLookup_foldl_keys (ks : List PathOrLit) (id : String) (m : List (PathOrLit × List String)) (k2 : PathOrLit) :
    groupLookup k2 (ks.foldl (fun m2 k => updateOrInsert m2 k id) m) =
      groupLookup k2 m ++ (ks.filter (fun k => k == k2)).map (fun _ => id) := by
  induction ks generalizing m with
  | nil => simp
  | cons kk ks ih =>
    rw [List.foldl_cons, ih, groupLookup_updateOrInsert, List.filter_cons]
    by_cases hk : k2 = kk
    · rw [if_pos hk, if_pos (by simp [hk])]
      simp
    · rw [if_neg hk, if_neg (by simp; exact fun hc => hk hc.symm)]

theorem foldl_applyDelta_groupLookup (ds : List VariantDelta) (st : LoopState) (k : PathOrLit) :
    groupLookup k (ds.foldl applyDelta st).fromEnums =
      groupLookup k st.fromEnums ++ groupContrib k ds := by
  induction ds generalizing st with
  | nil => simp [groupContrib]
  | cons d ds ih =>
    rw [List.foldl_cons, ih]
    show groupLookup k (applyDelta st d).fromEnums ++ _ = _
    rw [show (applyDelta st d).fromEnums = d.inlineKeys.foldl (fun m2 kk => updateOrInsert m2 kk d.ident) st.fromEnums from rfl]
    rw [groupLookup_foldl_keys]
    simp [groupContrib]

theorem keys_updateOrInsert (m : List (PathOrLit × List String)) (k : PathOrLit) (id : String)
    (h : (m.map Prod.fst).Nodup) : ((updateOrInsert m k id).map Prod.fst).Nodup := by
  unfold updateOrInsert
  by_cases hany : m.any (fun e => e.1 == k) = true
  · rw [if_pos hany]
    have : (m.map (fun e => if e.1 == k then (e.1, e.2 ++ [id]) else e)).map Prod.fst = m.map Prod.fst := by
      rw [List.map_map]
      apply List.map_congr_left
      intro e _
      by_cases hek : e.1 = k <;> simp [hek]
    rw [this]
    exact h
  · rw [if_neg hany]
    rw [List.map_append]
    rw [List.nodup_append]
    refine ⟨h, List.nodup_singleton _, ?_⟩
    intro a ha hb
    simp at hb
    obtain ⟨e, he, hfst⟩ := List.mem_map.mp ha
    have hek : (e.1 == k) = true := beq_iff_eq.mpr (by rw [hfst, hb])
    exact hany (List.any_eq_true.mpr ⟨e, he, by simpa using hek⟩)

theorem keys_foldl_keys (ks : List PathOrLit) (id : String) (m : List (PathOrLit × List String))
    (h : (m.map Prod.fst).Nodup) :
    ((ks.foldl (fun m2 k => updateOrInsert m2 k id) m).map Prod.fst).Nodup := by
  induction ks generalizing m with
  | nil => exact h
  | cons kk ks ih =>
    rw [List.foldl_cons]
    exact ih _ (keys_updateOrInsert m kk id h)

theorem keys_foldl_applyDelta (ds : List VariantDelta) (st : LoopState)
    (h : (st.fromEnums.map Prod.fst).Nodup) :
    (((ds.foldl applyDelta st).fromEnums).map Prod.fst).Nodup := by
  induction ds generalizing st with
  | nil => exact h
  | cons d ds ih =>
    rw [List.foldl_cons]
    exact ih _ (keys_foldl_keys _ _ _ h)

theorem sourceArm_ident {parseTP : String → Option TypePath} {tEnum : Bool} {tps : List String}
    {v : Variant} {d : VariantDelta} {a : SourceArm}
    (h : variantStep parseTP tEnum tps v = .ok d) (ha : d.sourceArm = some a) :
    a.ident = v.ident := by
  obtain ⟨_, harm, _⟩ := variantStep_ok h
  rw [harm] at ha
  by_cases hn : d.noSource
  · simp [hn] at ha
  · simp [hn] at ha
    by_cases ht : d.transparent
    · simp [ht] at ha
      simp [← ha, SourceArm.ident]
    · simp [ht] at ha
      simp [← ha, SourceArm.ident]

theorem displayCase_ident {parseTP : String → Option TypePath} {tEnum : Bool} {tps : List String}
    {v : Variant} {d : VariantDelta}
    (h : variantStep parseTP tEnum tps v = .ok d) :
    d.displayCase.ident = v.ident := by
  obtain ⟨_, _, hcase, _⟩ := variantStep_ok h
  rw [hcase]
  by_cases ht : d.transparent
  · simp [ht, DisplayCase.ident]
  · simp [ht, DisplayCase.ident]

theorem stepsOf_sourceArm_idents {parseTP : String → Option TypePath} {tEnum : Bool} {tps : List String}
    {vs : List Variant} {ds : List VariantDelta}
    (h : stepsOf parseTP tEnum tps vs = .ok ds) :
    ∀ a ∈ ds.filterMap (fun d => d.sourceArm), a.ident ∈ vs.map (fun v => v.ident) := by
  induction vs generalizing ds with
  | nil =>
    cases h
    intro a ha
    simp at ha
  | cons v vs ih =>
    unfold stepsOf at h
    split at h
    · cases h
    case _ d hd =>
      split at h
      · cases h
      case _ ds0 hds0 =>
        cases h
        intro a ha
        cases harm : d.sourceArm with
        | none =>
          simp only [List.filterMap_cons, harm] at ha
          exact List.mem_cons_of_mem _ (ih hds0 a ha)
        | some a0 =>
          simp only [List.filterMap_cons, harm] at ha
          rcases List.mem_cons.mp ha with hh | hh
          · rw [hh, List.map_cons, sourceArm_ident hd harm]
            exact List.mem_cons_self _ _
          · exact List.mem_cons_of_mem _ (ih hds0 a hh)

theorem find_sourceArm {parseTP : String → Option TypePath} {tEnum : Bool} {tps : List String}
    {vs : List Variant} {ds : List VariantDelta} {v : Variant} {d : VariantDelta}
    (h : stepsOf parseTP tEnum tps vs = .ok ds)
    (hnd : (vs.map (fun v2 => v2.ident)).Nodup)
    (hmem : v ∈ vs)
    (hd : variantStep parseTP tEnum tps v = .ok d) :
    (ds.filterMap (fun d2 => d2.sourceArm)).find? (fun a => a.ident == v.ident) = d.sourceArm := by
  induction vs generalizing ds with
  | nil => cases hmem
  | cons v0 vs0 ih =>
    unfold stepsOf at h
    split at h
    · cases h
    case _ d0 hd0 =>
      split at h
      · cases h
      case _ ds0 hds0 =>
        cases h
        rw [List.map_cons, List.nodup_cons] at hnd
        obtain ⟨hn0, hnd0⟩ := hnd
        rcases List.mem_cons.mp hmem with hv | hv
        · subst hv
          rw [hd] at hd0
          cases hd0
          cases harm : d.sourceArm with
          | some a =>
            simp only [List.filterMap_cons, harm]
            rw [List.find?_cons_of_pos _ (by simp [sourceArm_ident hd harm])]
          | none =>
            simp only [List.filterMap_cons, harm]
            apply List.find?_eq_none.mpr
            intro a ha
            have := stepsOf_sourceArm_idents hds0 a ha
            simp only [beq_iff_eq]
            intro hc
            exact hn0 (hc ▸ this)
        · have hvne : v.ident ≠ v0.ident := by
            intro hc
            exact hn0 (hc ▸ List.mem_map_of_mem _ hv)
          cases harm : d0.sourceArm with
          | some a =>
            simp only [List.filterMap_cons, harm]
            rw [List.find?_cons_of_neg _ (by
              simp only [beq_iff_eq]
              rw [sourceArm_ident hd0 harm]
              exact fun hc => hvne hc.symm)]
            exact ih hds0 hnd0 hv
          | none =>
            simp only [List.filterMap_cons, harm]
            exact ih hds0 hnd0 hv

theorem find_displayCase {parseTP : String → Option TypePath} {tEnum : Bool} {tps : List String}
    {vs : List Variant} {ds : List VariantDelta} {v : Variant} {d : VariantDelta}
    (h : stepsOf parseTP tEnum tps vs = .ok ds)
    (hnd : (vs.map (fun v2 => v2.ident)).Nodup)
    (hmem : v ∈ vs)
    (hd : variantStep parseTP tEnum tps v = .ok d) :
    (ds.map (fun d2 => d2.displayCase)).find? (fun c => c.ident == v.ident) = some d.displayCase := by
  induction vs generalizing ds with
  | nil => cases hmem
  | cons v0 vs0 ih =>
    unfold stepsOf at h
    split at h
    · cases h
    case _ d0 hd0 =>
      split at h
      · cases h
      case _ ds0 hds0 =>
        cases h
        rw [List.map_cons, List.nodup_cons] at hnd
        obtain ⟨hn0, hnd0⟩ := hnd
        rcases List.mem_cons.mp hmem with hv | hv
        · subst hv
          rw [hd] at hd0
          cases hd0
          rw [List.map_cons]
          rw [List.find?_cons_of_pos _ (by simp [displayCase_ident hd])]
        · have hvne : v.ident ≠ v0.ident := by
            intro hc
            exact hn0 (hc ▸ List.mem_map_of_mem _ hv)
          rw [List.map_cons]
          rw [List.find?_cons_of_neg _ (by
            simp only [beq_iff_eq]
            rw [displayCase_ident hd0]
            exact fun hc => hvne hc.symm)]
          exact ih hds0 hnd0 hv

theorem getTitle_ok {args : ArgsMap} {ident title : String} {rest : ArgsMap}
    (h : getTitle args ident = .ok (title, rest)) :
    rest = args.filter (fun e => e.1 != ("title")) ∧
    (lookupArg args ("title") = none → title = ident) := by
  unfold getTitle at h
  split at h
  case _ a rest2 heq =>
    have hfst : lookupArg args ("title") = some a := congrArg Prod.fst heq
    have hsnd : args.filter (fun e => e.1 != ("title")) = rest2 := congrArg Prod.snd heq
    split at h
    · cases h
      exact ⟨hsnd.symm, fun hc => absurd hfst (by simp [hc])⟩
    · cases h
    · cases h
  case _ rest2 heq =>
    have hsnd : args.filter (fun e => e.1 != ("title")) = rest2 := congrArg Prod.snd heq
    cases h
    exact ⟨hsnd.symm, fun _ => rfl⟩

theorem getDescription_ok {args : ArgsMap} {description : String} {rest : ArgsMap}
    (h : getDescription args = .ok (description, rest)) :
    rest = args.filter (fun e => e.1 != ("description")) ∧
    (lookupArg args ("description") = none → description = "") := by
  unfold getDescription at h
  split at h
  case _ a rest2 heq =>
    have hfst : lookupArg args ("description") = some a := congrArg Prod.fst heq
    have hsnd : args.filter (fun e => e.1 != ("description")) = rest2 := congrArg Prod.snd heq
    split at h
    · cases h
      exact ⟨hsnd.symm, fun hc => absurd hfst (by simp [hc])⟩
    · cases h
    · cases h
  case _ rest2 heq =>
    have hsnd : args.filter (fun e => e.1 != ("description")) = rest2 := congrArg Prod.snd heq
    cases h
    exact ⟨hsnd.symm, fun _ => rfl⟩

/-- A successful derive run on an enum decomposes into the per-variant steps
taken with the type-level transparent flag, and its output components are the
concatenations of the per-variant contributions; in addition the flattening
group keys are unique and the title and description take their defaults when
the directives are absent. -/
theorem derive_enum_ok {parseTP : String → Option TypePath} {inp : DeriveInput} {out : GenOutput} {vs : List Variant}
    (h : derive_compound_error parseTP inp = .ok out) (hv : inp.data = .enumData vs) :
    ∃ ds, stepsOf parseTP (transparentEnumOf inp) inp.typeParams vs = .ok ds ∧
      out.fromStructs = ds.filterMap (fun d => d.fromStruct) ∧
      out.sourceArms = ds.filterMap (fun d => d.sourceArm) ∧
      out.displayCases = ds.map (fun d => d.displayCase) ∧
      (∀ k, groupLookup k out.fromEnums = groupContrib k ds) ∧
      (out.fromEnums.map Prod.fst).Nodup ∧
      (hasToplevelArg inp ("title") = false → out.title = inp.ident) ∧
      (hasToplevelArg inp ("description") = false → out.description = "") := by
  unfold derive_compound_error at h
  split at h
  · cases h
  case _ toplevel0 hargs =>
  split at h
  · cases h
  case _ title toplevel1 htitle =>
  split at h
  · cases h
  case _ description toplevel2 hdesc =>
  split at h
  · cases h
  case _ skipDisplay hsd =>
  split at h
  · cases h
  case _ skipError hse =>
  split at h
  case _ variants heqd =>
    split at h
    · cases h
    case _ tEnum htr =>
    split at h
    · cases h
    case _ st hpv =>
    cases h
    have hvs : variants = vs := by
      rw [heqd] at hv
      cases hv
      rfl
    subst hvs
    obtain ⟨ht1, ht2⟩ := getTitle_ok htitle
    obtain ⟨hd1, hd2⟩ := getDescription_ok hdesc
    have hlook : lookupArg toplevel2 ("transparent") = lookupArg toplevel0 ("transparent") := by
      rw [hd1, ht1]
      rw [lookupArg_filter_ne _ _ _ (by decide), lookupArg_filter_ne _ _ _ (by decide)]
    have htE : tEnum = transparentEnumOf inp := by
      rw [flag_ok_isSome htr, hlook, transparentEnumOf, hargs]
    obtain ⟨ds, hds, hst⟩ := processVariants_ok hpv
    refine ⟨ds, by rw [← htE]; exact hds, ?_, ?_, ?_, ?_, ?_, ?_, ?_⟩
    · show st.fromStructs = _
      rw [hst, foldl_applyDelta_fromStructs]
      simp
    · show st.sourceArms = _
      rw [hst, foldl_applyDelta_sourceArms]
      simp
    · show st.displayCases = _
      rw [hst, foldl_applyDelta_displayCases]
      simp
    · intro k
      show groupLookup k st.fromEnums = _
      rw [hst, foldl_applyDelta_groupLookup]
      simp [groupLookup]
    · show ((st.fromEnums).map Prod.fst).Nodup
      rw [hst]
      exact keys_foldl_applyDelta ds _ (by simp)
    · intro hc
      simp only [hasToplevelArg, hargs] at hc
      cases hl : lookupArg toplevel0 ("title") with
      | none => exact ht2 hl
      | some a =>
        rw [hl] at hc
        simp at hc
    · intro hc
      simp only [hasToplevelArg, hargs] at hc
      cases hl : lookupArg toplevel0 ("description") with
      | none =>
        apply hd2
        rw [ht1, lookupArg_filter_ne _ _ _ (by decide)]
        exact hl
      | some a =>
        rw [hl] at hc
        simp at hc
  case _ heqd =>
    rw [heqd] at hv
    cases hv
  case _ heqd =>
    cases h

theorem lookupArg_none_not_mem {args : ArgsMap} {k : String} (h : lookupArg args k = none) :
    k ∉ args.map Prod.fst := by
  intro hmem
  obtain ⟨e, he, hfst⟩ := List.mem_map.mp hmem
  cases hf : args.find? (fun e2 => e2.1 == k) with
  | some e2 =>
    unfold lookupArg at h
    rw [hf] at h
    cases h
  | none =>
    exact (List.find?_eq_none.mp hf e he) (beq_iff_eq.mpr hfst)

theorem insertArg_inv {args : ArgsMap} {k : String} {a : AttrArg} {known : List String}
    (hnd : (args.map Prod.fst).Nodup) (hmem : ∀ e ∈ args, e.1 ∈ known)
    (hk : k ∈ known) (habs : lookupArg args k = none) :
    ((insertArg args k a).map Prod.fst).Nodup ∧ ∀ e ∈ insertArg args k a, e.1 ∈ known := by
  constructor
  · rw [insertArg, List.map_append, List.nodup_append]
    refine ⟨hnd, List.nodup_singleton _, ?_⟩
    intro x hx hx2
    simp at hx2
    rw [hx2] at hx
    exact lookupArg_none_not_mem habs hx
  · intro e he
    rcases List.mem_append.mp he with h1 | h1
    · exact hmem e h1
    · simp at h1
      rw [h1]
      exact hk

theorem attrArgsNested_inv {known : List String} {nested : List NestedMeta} {args args2 : ArgsMap}
    (hnd : (args.map Prod.fst).Nodup) (hmem : ∀ e ∈ args, e.1 ∈ known)
    (h : attrArgsNested known args nested = .ok args2) :
    (args2.map Prod.fst).Nodup ∧ ∀ e ∈ args2, e.1 ∈ known := by
  induction nested generalizing args with
  | nil =>
    cases h
    exact ⟨hnd, hmem⟩
  | cons nm rest ih =>
    cases nm with
    | lit l => cases h
    | metaPath p =>
      unfold attrArgsNested at h
      split at h
      · cases h
      case _ id hid =>
        split at h
        case _ hcont =>
          split at h
          · cases h
          case _ hdup =>
            have hk : id ∈ known := by simpa using hcont
            have habs : lookupArg args id = none := by
              cases hl : lookupArg args id with
              | none => rfl
              | some a2 => rw [hl] at hdup; simp at hdup
            obtain ⟨hnd2, hmem2⟩ := insertArg_inv hnd hmem hk habs
            exact ih hnd2 hmem2 h
        · cases h
    | metaList p nested2 =>
      unfold attrArgsNested at h
      split at h
      · cases h
      case _ id hid =>
        split at h
        case _ hcont =>
          split at h
          · cases h
          case _ hdup =>
            have hk : id ∈ known := by simpa using hcont
            have habs : lookupArg args id = none := by
              cases hl : lookupArg args id with
              | none => rfl
              | some a2 => rw [hl] at hdup; simp at hdup
            obtain ⟨hnd2, hmem2⟩ := insertArg_inv hnd hmem hk habs
            exact ih hnd2 hmem2 h
        · cases h
    | metaNameValue p l =>
      unfold attrArgsNested at h
      split at h
      · cases h
      case _ id hid =>
        split at h
        case _ hcont =>
          split at h
          · cases h
          case _ hdup =>
            have hk : id ∈ known := by simpa using hcont
            have habs : lookupArg args id = none := by
              cases hl : lookupArg args id with
              | none => rfl
              | some a2 => rw [hl] at hdup; simp at hdup
            obtain ⟨hnd2, hmem2⟩ := insertArg_inv hnd hmem hk habs
            exact ih hnd2 hmem2 h
        · cases h

theorem attrArgsGo_inv {requiredKey : String} {known : List String} {attrs : List Attribute} {args args2 : ArgsMap}
    (hnd : (args.map Prod.fst).Nodup) (hmem : ∀ e ∈ args, e.1 ∈ known)
    (h : attrArgsGo requiredKey known args attrs = .ok args2) :
    (args2.map Prod.fst).Nodup ∧ ∀ e ∈ args2, e.1 ∈ known := by
  induction attrs generalizing args with
  | nil =>
    cases h
    exact ⟨hnd, hmem⟩
  | cons attr rest ih =>
    unfold attrArgsGo at h
    split at h
    · split at h
      · cases h
      · cases h
      · exact ih hnd hmem h
      · split at h
        · cases h
        case _ argsMid hmid =>
          obtain ⟨hnd2, hmem2⟩ := attrArgsNested_inv hnd hmem hmid
          exact ih hnd2 hmem2 h
    · exact ih hnd hmem h

theorem stepsOf_fromStruct_count {parseTP : String → Option TypePath} {tEnum : Bool} {tps : List String}
    {vs : List Variant} {ds : List VariantDelta}
    (h : stepsOf parseTP tEnum tps vs = .ok ds) :
    (ds.filterMap (fun d => d.fromStruct)).length = vs.countP (singleFromEligible tps) := by
  induction vs generalizing ds with
  | nil =>
    cases h
    simp
  | cons v vs ih =>
    unfold stepsOf at h
    split at h
    · cases h
    case _ d hd =>
      split at h
      · cases h
      case _ ds0 hds0 =>
        cases h
        have he := (variantStep_ok hd).2.2.2.1
        rw [List.countP_cons]
        cases hfs : d.fromStruct with
        | none =>
          rw [hfs] at he
          simp only [List.filterMap_cons, hfs]
          rw [ih hds0]
          simp [← he]
        | some e =>
          rw [hfs] at he
          simp only [List.filterMap_cons, hfs, List.length_cons]
          rw [ih hds0]
          simp [← he]

theorem runInlineFrom_mem (locals : List String) (name : String) (x : ErrValue) :
    runInlineFrom locals (name, x) = (if name ∈ locals then some (name, x) else none) := by
  induction locals with
  | nil => simp [runInlineFrom]
  | cons a locals ih =>
    by_cases ha : a = name
    · subst ha
      simp [runInlineFrom, List.find?_cons]
    · have hb : (a == name) = false := beq_eq_false_iff_ne.mpr ha
      simp only [runInlineFrom] at ih
      simp only [runInlineFrom, List.find?_cons, hb]
      rw [ih]
      by_cases hm : name ∈ locals
      · rw [if_pos hm, if_pos (List.mem_cons_of_mem _ hm)]
      · rw [if_neg hm, if_neg (by
          intro hc
          rcases List.mem_cons.mp hc with h1 | h1
          · exact ha h1.symm
          · exact hm h1)]

/-- Builds a single path segment without generic arguments. -/
def mkSeg (s : String) : PathSegment :=
  { ident := s, arguments := none }

/-- Builds a one-segment path without a leading colon. -/
def mkPath (s : String) : Path :=
  { leadingColon := false, segments := [mkSeg s] }

/-- Builds a type path over a one-segment path. -/
def mkTypePath (s : String) : TypePath :=
  { qself := none, path := mkPath s }

/-- A concrete host parser for string-literal type references used in the
examples: any string parses to the one-segment type path of that name. -/
def parseSimple (s : String) : Option TypePath :=
  some (mkTypePath s)

/-- A raw compound_error attribute carrying the given nested entries. -/
def attrOf (nested : List NestedMeta) : Attribute :=
  { path := mkPath ("compound_error"),
    meta := some (Meta.list (mkPath ("compound_error")) nested) }

/-- A variant with one unnamed payload field and no attributes. -/
def plainVariant (name ty : String) : Variant :=
  { ident := name, fields := Fields.unnamed [Ty.typePath (mkPath ty)], attrs := [] }

/-- A variant with one unnamed payload field and one compound_error
attribute. -/
def attrVariant (name ty : String) (nested : List NestedMeta) : Variant :=
  { ident := name, fields := Fields.unnamed [Ty.typePath (mkPath ty)], attrs := [attrOf nested] }

/-- A fallback output used by the total projection of a derive result. -/
def defaultGenOutput : GenOutput :=
  { title := "", description := "", skipDisplay := false, skipError := false,
    structMode := false, fromStructs := [], fromEnums := [], sourceArms := [], displayCases := [] }

/-- Total projection of a derive result onto its output. -/
def getOk : Except CompileError GenOutput → GenOutput
  | .ok o => o
  | .error _ => defaultGenOutput

/-- A fallback delta used by the total projection of a variant step. -/
def defaultDelta : VariantDelta :=
  { ident := "", payloadPath := mkPath (""), inlineKeys := [], skipSingleFrom := false,
    transparent := false, noSource := false, convertSource := none, fromStruct := none,
    sourceArm := none, displayCase := DisplayCase.transparentCase ("") }

/-- Total projection of a variant step result onto its delta. -/
def getOkD : Except CompileError VariantDelta → VariantDelta
  | .ok d => d
  | .error _ => defaultDelta

/-- Total projection of a stepsOf result onto its delta list. -/
def getOkSteps : Except CompileError (List VariantDelta) → List VariantDelta
  | .ok ds => ds
  | .error _ => []

/-- Total projection of an attr_args result onto its map. -/
def getOkArgs : Except AttrArgsError ArgsMap → ArgsMap
  | .ok m => m
  | .error _ => []

/-- C9: for every raw annotation list and allow-list, when the directive
parser attr_args succeeds, every key of the returned mapping was declared in
the allow-list and no key appears twice, the accumulated map being threaded
across separate annotation entries so duplicates across entries are also
excluded; when it fails, the result is one of the AttrArgsError shapes
(unrecognized key, duplicate key, first-level literal, missing meta, or
name-value annotation), each carrying the offending token. -/
theorem c9_attr_args_sound {attrs : List Attribute} {requiredKey : String} {known : List String} {m : ArgsMap}
    (h : attr_args attrs requiredKey known = .ok m) :
    (m.map Prod.fst).Nodup ∧ ∀ e ∈ m, e.1 ∈ known :=
  attrArgsGo_inv (by simp) (fun e he => absurd he (List.not_mem_nil e)) h

/-- Annotation list exercising C9: two separate compound_error entries whose
keys are distinct and recognized. -/
def exAttrs9 : List Attribute :=
  [attrOf [NestedMeta.metaPath (mkPath ("no_source"))],
   attrOf [NestedMeta.metaPath (mkPath ("transparent"))]]

theorem c9_witness :
    ((getOkArgs (attr_args exAttrs9 ("compound_error") variantKeys)).map Prod.fst).Nodup ∧
    ∀ e ∈ getOkArgs (attr_args exAttrs9 ("compound_error") variantKeys), e.1 ∈ variantKeys := by
  have h : attr_args exAttrs9 ("compound_error") variantKeys =
      .ok (getOkArgs (attr_args exAttrs9 ("compound_error") variantKeys)) := rfl
  exact c9_attr_args_sound h

/-- C2: for every derive input whose data is an enum that generation accepts,
the number of generated single-value conversions (the From impls collected in
fromStructs) equals the number of variants that did not set skip_single_from
and whose payload type path is not exactly one of the generic type parameters
of the enclosing type (the is_ident test of src/lib.rs, which on inputs the
host language accepts coincides with the payload base type being a generic
parameter). -/
theorem c2_single_from_count {parseTP : String → Option TypePath} {inp : DeriveInput} {out : GenOutput} {vs : List Variant}
    (h : derive_compound_error parseTP inp = .ok out) (hv : inp.data = .enumData vs) :
    out.fromStructs.length = vs.countP (singleFromEligible inp.typeParams) := by
  obtain ⟨ds, hds, hfs, _⟩ := derive_enum_ok h hv
  rw [hfs]
  exact stepsOf_fromStruct_count hds

/-- The variants of the C2 example: an eligible payload, a generic-parameter
payload, and a skip_single_from variant. -/
def exVars2 : List Variant :=
  [plainVariant ("A") ("X"), plainVariant ("B") ("T"),
   attrVariant ("C") ("Y") [NestedMeta.metaPath (mkPath ("skip_single_from"))]]

/-- The C2 example input: one generic parameter T. -/
def exIn2 : DeriveInput :=
  { ident := "Foo", typeParams := [("T" : String)], attrs := [], data := InputData.enumData exVars2 }

theorem c2_witness :
    (getOk (derive_compound_error parseSimple exIn2)).fromStructs.length =
      exVars2.countP (singleFromEligible exIn2.typeParams) := by
  have h : derive_compound_error parseSimple exIn2 =
      .ok (getOk (derive_compound_error parseSimple exIn2)) := rfl
  exact c2_single_from_count h rfl

/-- C5: for a variant whose resolved options set neither no_source nor
transparent, converting a payload into the composite through the generated
single-value conversion and then running the generated source accessor
returns the payload, transformed by the declared convert_source function when
one is present. -/
theorem c5_roundtrip {parseTP : String → Option TypePath} {inp : DeriveInput} {out : GenOutput}
    {vs : List Variant} {v : Variant} {d : VariantDelta}
    (h : derive_compound_error parseTP inp = .ok out)
    (hv : inp.data = .enumData vs)
    (hnd : (vs.map (fun v2 => v2.ident)).Nodup)
    (hmem : v ∈ vs)
    (hd : variantStep parseTP (transparentEnumOf inp) inp.typeParams v = .ok d)
    (hns : d.noSource = false)
    (ht : d.transparent = false)
    (hgen : d.fromStruct.isSome = true)
    (hse : out.skipError = false)
    (convEnv : Path → ErrValue → ErrValue) (x : ErrValue) :
    runSource convEnv out.sourceArms (fromSingle v.ident x).1 (fromSingle v.ident x).2 =
      some (applyConv convEnv d.convertSource x) := by
  obtain ⟨ds, hds, _, harms, _⟩ := derive_enum_ok h hv
  have hfind := find_sourceArm hds hnd hmem hd
  have harm : d.sourceArm = some (SourceArm.someArm v.ident d.convertSource) := by
    obtain ⟨_, hsrc, _⟩ := variantStep_ok hd
    rw [hsrc, hns, ht]
    simp
  rw [harm] at hfind
  simp only [fromSingle, runSource, harms, hfind]

/-- The C5 example variant: convert_source names the transformation f. -/
def exVar5 : Variant :=
  attrVariant ("A") ("X") [NestedMeta.metaList (mkPath ("convert_source")) [NestedMeta.metaPath (mkPath ("f"))]]

/-- The C5 example input. -/
def exIn5 : DeriveInput :=
  { ident := "Foo", typeParams := [], attrs := [], data := InputData.enumData [exVar5] }

/-- The resolved delta of the C5 example variant. -/
def exDelta5 : VariantDelta :=
  getOkD (variantStep parseSimple (transparentEnumOf exIn5) exIn5.typeParams exVar5)

/-- A concrete interpretation of named conversion functions for the C5
example. -/
def convEnv5 : Path → ErrValue → ErrValue :=
  fun _ e => ErrValue.mk (("converted ") ++ e.display) none

theorem c5_witness :
    runSource convEnv5 (getOk (derive_compound_error parseSimple exIn5)).sourceArms
        (fromSingle exVar5.ident (ErrValue.mk ("payload") none)).1
        (fromSingle exVar5.ident (ErrValue.mk ("payload") none)).2 =
      some (applyConv convEnv5 exDelta5.convertSource (ErrValue.mk ("payload") none)) := by
  have h : derive_compound_error parseSimple exIn5 =
      .ok (getOk (derive_compound_error parseSimple exIn5)) := rfl
  have hd : variantStep parseSimple (transparentEnumOf exIn5) exIn5.typeParams exVar5 =
      .ok exDelta5 := rfl
  exact c5_roundtrip h rfl (by decide) (List.mem_singleton.mpr rfl) hd rfl rfl rfl rfl
    convEnv5 (ErrValue.mk ("payload") none)

/-- C6: for a variant whose resolved transparent flag is set, whether locally
or inherited from the type-level directive, the generated rendering of a
composite value holding that variant is exactly the payload rendering, with
no header line and no branch marker. -/
theorem c6_transparent_display {parseTP : String → Option TypePath} {inp : DeriveInput} {out : GenOutput}
    {vs : List Variant} {v : Variant} {d : VariantDelta}
    (h : derive_compound_error parseTP inp = .ok out)
    (hv : inp.data = .enumData vs)
    (hnd : (vs.map (fun v2 => v2.ident)).Nodup)
    (hmem : v ∈ vs)
    (hd : variantStep parseTP (transparentEnumOf inp) inp.typeParams v = .ok d)
    (ht : d.transparent = true)
    (hsd : out.skipDisplay = false)
    (x : ErrValue) :
    runDisplay out.title out.description out.displayCases v.ident x = x.display := by
  obtain ⟨ds, hds, _, _, hcases, _⟩ := derive_enum_ok h hv
  have hfind := find_displayCase hds hnd hmem hd
  have hcase : d.displayCase = DisplayCase.transparentCase v.ident := by
    obtain ⟨_, _, hdc, _⟩ := variantStep_ok hd
    rw [hdc, ht]
    simp
  rw [hcase] at hfind
  simp only [runDisplay, hcases, hfind]

/-- The C6 example variant: locally transparent. -/
def exVar6 : Variant :=
  attrVariant ("A") ("X") [NestedMeta.metaPath (mkPath ("transparent"))]

/-- The C6 example input. -/
def exIn6 : DeriveInput :=
  { ident := "Foo", typeParams := [], attrs := [], data := InputData.enumData [exVar6] }

/-- The resolved delta of the C6 example variant. -/
def exDelta6 : VariantDelta :=
  getOkD (variantStep parseSimple (transparentEnumOf exIn6) exIn6.typeParams exVar6)

theorem c6_witness :
    runDisplay (getOk (derive_compound_error parseSimple exIn6)).title
        (getOk (derive_compound_error parseSimple exIn6)).description
        (getOk (derive_compound_error parseSimple exIn6)).displayCases
        exVar6.ident (ErrValue.mk ("inner") none) =
      (ErrValue.mk ("inner") none).display := by
  have h : derive_compound_error parseSimple exIn6 =
      .ok (getOk (derive_compound_error parseSimple exIn6)) := rfl
  have hd : variantStep parseSimple (transparentEnumOf exIn6) exIn6.typeParams exVar6 =
      .ok exDelta6 := rfl
  exact c6_transparent_display h rfl (by decide) (List.mem_singleton.mpr rfl) hd rfl rfl
    (ErrValue.mk ("inner") none)

/-- C7: rendering a non-transparent variant without no_source always produces
the header line built from title and description followed by exactly one
indented branch line carrying the payload rendering; with no type-level
directives the title defaults to the type name and the description to the
empty string. -/
theorem c7_framed_display {parseTP : String → Option TypePath} {inp : DeriveInput} {out : GenOutput}
    {vs : List Variant} {v : Variant} {d : VariantDelta}
    (h : derive_compound_error parseTP inp = .ok out)
    (hv : inp.data = .enumData vs)
    (hnd : (vs.map (fun v2 => v2.ident)).Nodup)
    (hmem : v ∈ vs)
    (hd : variantStep parseTP (transparentEnumOf inp) inp.typeParams v = .ok d)
    (ht : d.transparent = false)
    (hns : d.noSource = false)
    (hsd : out.skipDisplay = false)
    (x : ErrValue) :
    runDisplay out.title out.description out.displayCases v.ident x =
      out.title ++ out.description ++ (":\n") ++ ("  └ ") ++ x.display ∧
    (hasToplevelArg inp ("title") = false → out.title = inp.ident) ∧
    (hasToplevelArg inp ("description") = false → out.description = "") := by
  obtain ⟨ds, hds, _, _, hcases, _, _, htitle, hdesc⟩ := derive_enum_ok h hv
  have hfind := find_displayCase hds hnd hmem hd
  have hcase : d.displayCase = DisplayCase.framedCase v.ident BranchDisplay.payload := by
    obtain ⟨_, _, hdc, _⟩ := variantStep_ok hd
    rw [hdc, ht, hns]
    simp
  rw [hcase] at hfind
  refine ⟨?_, htitle, hdesc⟩
  simp only [runDisplay, hcases, hfind]

/-- The C7 example variants: two plain variants. -/
def exVars7 : List Variant :=
  [plainVariant ("A") ("X"), plainVariant ("B") ("Y")]

/-- The C7 example input: no directives anywhere. -/
def exIn7 : DeriveInput :=
  { ident := "Foo", typeParams := [], attrs := [], data := InputData.enumData exVars7 }

/-- The resolved delta of the first C7 example variant. -/
def exDelta7 : VariantDelta :=
  getOkD (variantStep parseSimple (transparentEnumOf exIn7) exIn7.typeParams (plainVariant ("A") ("X")))

theorem c7_witness :
    (runDisplay (getOk (derive_compound_error parseSimple exIn7)).title
        (getOk (derive_compound_error parseSimple exIn7)).description
        (getOk (derive_compound_error parseSimple exIn7)).displayCases
        (plainVariant ("A") ("X")).ident (ErrValue.mk ("boom") none) =
      (getOk (derive_compound_error parseSimple exIn7)).title ++
        (getOk (derive_compound_error parseSimple exIn7)).description ++
        (":\n") ++ ("  └ ") ++ (ErrValue.mk ("boom") none).display ∧
    (hasToplevelArg exIn7 ("title") = false →
      (getOk (derive_compound_error parseSimple exIn7)).title = exIn7.ident) ∧
    (hasToplevelArg exIn7 ("description") = false →
      (getOk (derive_compound_error parseSimple exIn7)).description = "")) ∧
    runDisplay (getOk (derive_compound_error parseSimple exIn7)).title
        (getOk (derive_compound_error parseSimple exIn7)).description
        (getOk (derive_compound_error parseSimple exIn7)).displayCases
        (plainVariant ("A") ("X")).ident (ErrValue.mk ("boom") none) =
      ("Foo:\n  └ boom") := by
  have h : derive_compound_error parseSimple exIn7 =
      .ok (getOk (derive_compound_error parseSimple exIn7)) := rfl
  have hd : variantStep parseSimple (transparentEnumOf exIn7) exIn7.typeParams
      (plainVariant ("A") ("X")) = .ok exDelta7 := rfl
  refine ⟨c7_framed_display h rfl (by decide) ?_ hd rfl rfl rfl (ErrValue.mk ("boom") none), rfl⟩
  exact List.mem_cons_self _ _

/-- C8: for a variant with no_source set and transparent unset, the generated
source accessor falls through to the trailing None case, and the generated
rendering shows the branch line as the literal variant name instead of the
payload rendering. -/
theorem c8_no_source {parseTP : String → Option TypePath} {inp : DeriveInput} {out : GenOutput}
    {vs : List Variant} {v : Variant} {d : VariantDelta}
    (h : derive_compound_error parseTP inp = .ok out)
    (hv : inp.data = .enumData vs)
    (hnd : (vs.map (fun v2 => v2.ident)).Nodup)
    (hmem : v ∈ vs)
    (hd : variantStep parseTP (transparentEnumOf inp) inp.typeParams v = .ok d)
    (hns : d.noSource = true)
    (ht : d.transparent = false)
    (hse : out.skipError = false)
    (hsd : out.skipDisplay = false)
    (convEnv : Path → ErrValue → ErrValue) (x : ErrValue) :
    runSource convEnv out.sourceArms v.ident x = none ∧
    runDisplay out.title out.description out.displayCases v.ident x =
      out.title ++ out.description ++ (":\n") ++ ("  └ ") ++ v.ident := by
  obtain ⟨ds, hds, _, harms, hcasesEq, hgl, _⟩ := derive_enum_ok h hv
  have hfindA := find_sourceArm hds hnd hmem hd
  have hfindC := find_displayCase hds hnd hmem hd
  obtain ⟨_, hsrc, hdc, _⟩ := variantStep_ok hd
  have harm : d.sourceArm = none := by
    rw [hsrc, hns]
    simp
  have hcase : d.displayCase = DisplayCase.framedCase v.ident (BranchDisplay.literalName v.ident) := by
    rw [hdc, ht, hns]
    simp
  rw [harm] at hfindA
  rw [hcase] at hfindC
  constructor
  · simp only [runSource, harms, hfindA]
  · simp only [runDisplay, hcasesEq, hfindC]

/-- The C8 example variant: no_source. -/
def exVar8 : Variant :=
  attrVariant ("C") ("Z") [NestedMeta.metaPath (mkPath ("no_source"))]

/-- The C8 example input. -/
def exIn8 : DeriveInput :=
  { ident := "Foo", typeParams := [], attrs := [], data := InputData.enumData [exVar8] }

/-- The resolved delta of the C8 example variant. -/
def exDelta8 : VariantDelta :=
  getOkD (variantStep parseSimple (transparentEnumOf exIn8) exIn8.typeParams exVar8)

theorem c8_witness :
    runSource convEnv5 (getOk (derive_compound_error parseSimple exIn8)).sourceArms
        exVar8.ident (ErrValue.mk ("zzz") none) = none ∧
    runDisplay (getOk (derive_compound_error parseSimple exIn8)).title
        (getOk (derive_compound_error parseSimple exIn8)).description
        (getOk (derive_compound_error parseSimple exIn8)).displayCases
        exVar8.ident (ErrValue.mk ("zzz") none) =
      (getOk (derive_compound_error parseSimple exIn8)).title ++
        (getOk (derive_compound_error parseSimple exIn8)).description ++
        (":\n") ++ ("  └ ") ++ exVar8.ident := by
  have h : derive_compound_error parseSimple exIn8 =
      .ok (getOk (derive_compound_error parseSimple exIn8)) := rfl
  have hd : variantStep parseSimple (transparentEnumOf exIn8) exIn8.typeParams exVar8 =
      .ok exDelta8 := rfl
  exact c8_no_source h rfl (by decide) (List.mem_singleton.mpr rfl) hd rfl rfl rfl rfl
    convEnv5 (ErrValue.mk ("zzz") none)

/-- C10: for a variant with both no_source and transparent set, the generated
source accessor still falls through to the trailing None case, because the
no_source branch of the loop skips adding any source arm even for a
transparent variant, while the generated rendering forwards directly to the
payload rendering because the Display branch tests transparent alone. -/
theorem c10_no_source_transparent {parseTP : String → Option TypePath} {inp : DeriveInput} {out : GenOutput}
    {vs : List Variant} {v : Variant} {d : VariantDelta}
    (h : derive_compound_error parseTP inp = .ok out)
    (hv : inp.data = .enumData vs)
    (hnd : (vs.map (fun v2 => v2.ident)).Nodup)
    (hmem : v ∈ vs)
    (hd : variantStep parseTP (transparentEnumOf inp) inp.typeParams v = .ok d)
    (hns : d.noSource = true)
    (ht : d.transparent = true)
    (convEnv : Path → ErrValue → ErrValue) (x : ErrValue) :
    runSource convEnv out.sourceArms v.ident x = none ∧
    runDisplay out.title out.description out.displayCases v.ident x = x.display := by
  obtain ⟨ds, hds, _, harms, hcasesEq, _⟩ := derive_enum_ok h hv
  have hfindA := find_sourceArm hds hnd hmem hd
  have hfindC := find_displayCase hds hnd hmem hd
  obtain ⟨_, hsrc, hdc, _⟩ := variantStep_ok hd
  have harm : d.sourceArm = none := by
    rw [hsrc, hns]
    simp
  have hcase : d.displayCase = DisplayCase.transparentCase v.ident := by
    rw [hdc, ht]
    simp
  rw [harm] at hfindA
  rw [hcase] at hfindC
  constructor
  · simp only [runSource, harms, hfindA]
  · simp only [runDisplay, hcasesEq, hfindC]

/-- The C10 example variant: both no_source and transparent. -/
def exVar10 : Variant :=
  attrVariant ("C") ("Z")
    [NestedMeta.metaPath (mkPath ("no_source")), NestedMeta.metaPath (mkPath ("transparent"))]

/-- The C10 example input. -/
def exIn10 : DeriveInput :=
  { ident := "Foo", typeParams := [], attrs := [], data := InputData.enumData [exVar10] }

/-- The resolved delta of the C10 example variant. -/
def exDelta10 : VariantDelta :=
  getOkD (variantStep parseSimple (transparentEnumOf exIn10) exIn10.typeParams exVar10)

theorem c10_witness :
    runSource convEnv5 (getOk (derive_compound_error parseSimple exIn10)).sourceArms
        exVar10.ident (ErrValue.mk ("zzz") none) = none ∧
    runDisplay (getOk (derive_compound_error parseSimple exIn10)).title
        (getOk (derive_compound_error parseSimple exIn10)).description
        (getOk (derive_compound_error parseSimple exIn10)).displayCases
        exVar10.ident (ErrValue.mk ("zzz") none) =
      (ErrValue.mk ("zzz") none).display := by
  have h : derive_compound_error parseSimple exIn10 =
      .ok (getOk (derive_compound_error parseSimple exIn10)) := rfl
  have hd : variantStep parseSimple (transparentEnumOf exIn10) exIn10.typeParams exVar10 =
      .ok exDelta10 := rfl
  exact c10_no_source_transparent h rfl (by decide) (List.mem_singleton.mpr rfl) hd rfl rfl
    convEnv5 (ErrValue.mk ("zzz") none)

/-- The C1 scenario input: variant D(W) carrying inline_from(OtherType). -/
def exIn1 : DeriveInput :=
  { ident := "Foo", typeParams := [], attrs := [],
    data := InputData.enumData
      [attrVariant ("D") ("W")
        [NestedMeta.metaList (mkPath ("inline_from")) [NestedMeta.metaPath (mkPath ("OtherType"))]]] }

/-- C1 counterexample: in the scenario of the claim, generation groups the
single local variant D under OtherType, and the generated flattening
conversion maps only the OtherType variant named D; a value of an OtherType
variant named P or Q matches no arm at all, so it is not mapped into D. -/
theorem c1_counterexample :
    derive_compound_error parseSimple exIn1 = .ok (getOk (derive_compound_error parseSimple exIn1)) ∧
    (getOk (derive_compound_error parseSimple exIn1)).fromEnums =
      [(PathOrLit.path (mkPath ("OtherType")), [("D" : String)])] ∧
    runInlineFrom [("D" : String)] (("P"), ErrValue.mk ("w") none) = none ∧
    runInlineFrom [("D" : String)] (("Q"), ErrValue.mk ("w") none) = none ∧
    runInlineFrom [("D" : String)] (("P"), ErrValue.mk ("w") none) ≠
      some (("D"), ErrValue.mk ("w") none) := by
  refine ⟨rfl, rfl, rfl, rfl, ?_⟩
  intro hc
  rw [show runInlineFrom [("D" : String)] (("P"), ErrValue.mk ("w") none) = none from rfl] at hc
  cases hc

/-- C1 amended: all local variants listing the same inline_from target are
merged into a single flattening conversion per target (the group keys are
unique), the group of a target consists exactly of the local variants that
listed it, in loop order, and the generated case analysis maps the R variant
carrying the same name as a grouped local variant into that local variant,
passing the payload through; R variant names outside the group match no
arm. -/
theorem c1_inline_same_name {parseTP : String → Option TypePath} {inp : DeriveInput} {out : GenOutput}
    {vs : List Variant} {ds : List VariantDelta}
    (h : derive_compound_error parseTP inp = .ok out)
    (hv : inp.data = .enumData vs)
    (hds : stepsOf parseTP (transparentEnumOf inp) inp.typeParams vs = .ok ds) :
    (out.fromEnums.map Prod.fst).Nodup ∧
    (∀ k, groupLookup k out.fromEnums = groupContrib k ds) ∧
    (∀ (locals : List String) (name : String) (x : ErrValue),
      runInlineFrom locals (name, x) = (if name ∈ locals then some (name, x) else none)) := by
  obtain ⟨ds2, hds2, _, _, _, hgl, hnd2, _⟩ := derive_enum_ok h hv
  have hde : ds2 = ds := by
    rw [hds] at hds2
    cases hds2
    rfl
  subst hde
  exact ⟨hnd2, hgl, fun locals name x => runInlineFrom_mem locals name x⟩

/-- The variants of the C1 amended witness: D and E both listing
inline_from(RR), merged into one group. -/
def exVars1w : List Variant :=
  [attrVariant ("D") ("W")
    [NestedMeta.metaList (mkPath ("inline_from")) [NestedMeta.metaPath (mkPath ("RR"))]],
   attrVariant ("E") ("U")
    [NestedMeta.metaList (mkPath ("inline_from")) [NestedMeta.metaPath (mkPath ("RR"))]]]

/-- The C1 amended witness input. -/
def exIn1w : DeriveInput :=
  { ident := "Foo", typeParams := [], attrs := [], data := InputData.enumData exVars1w }

theorem c1_witness :
    groupLookup (PathOrLit.path (mkPath ("RR")))
        (getOk (derive_compound_error parseSimple exIn1w)).fromEnums = [("D" : String), ("E")] ∧
    runInlineFrom [("D" : String), ("E")] (("D"), ErrValue.mk ("w") none) =
      some (("D"), ErrValue.mk ("w") none) := by
  have h : derive_compound_error parseSimple exIn1w =
      .ok (getOk (derive_compound_error parseSimple exIn1w)) := rfl
  have hds : stepsOf parseSimple (transparentEnumOf exIn1w) exIn1w.typeParams exVars1w =
      .ok (getOkSteps (stepsOf parseSimple (transparentEnumOf exIn1w) exIn1w.typeParams exVars1w)) := rfl
  have hc := c1_inline_same_name h rfl hds
  refine ⟨(hc.2.1 (PathOrLit.path (mkPath ("RR")))).trans rfl, ?_⟩
  exact (hc.2.2 [("D" : String), ("E")] ("D") (ErrValue.mk ("w") none)).trans rfl

/-- The C3 counterexample input: variant D(W) carrying inline_from(RType),
while RType is taken to have variants P and Q, neither of which is covered. -/
def exIn3 : DeriveInput :=
  { ident := "Foo", typeParams := [], attrs := [],
    data := InputData.enumData
      [attrVariant ("D") ("W")
        [NestedMeta.metaList (mkPath ("inline_from")) [NestedMeta.metaPath (mkPath ("RType"))]]] }

/-- C3 counterexample: generation succeeds with no error on an input whose
flattening target RType is covered only at the variant named D; the
referenced-type variant P has no arm in the generated case analysis, so
partial coverage is neither detected nor rejected — the macro never sees the
definition of RType at all. -/
theorem c3_counterexample :
    derive_compound_error parseSimple exIn3 = .ok (getOk (derive_compound_error parseSimple exIn3)) ∧
    groupLookup (PathOrLit.path (mkPath ("RType")))
      (getOk (derive_compound_error parseSimple exIn3)).fromEnums = [("D" : String)] ∧
    runInlineFrom [("D" : String)] (("P"), ErrValue.mk ("p") none) = none ∧
    runInlineFrom [("D" : String)] (("Q"), ErrValue.mk ("q") none) = none :=
  ⟨rfl, rfl, rfl, rfl⟩

/-- C3 amended: the generator performs no coverage or conflict check over the
variants of a flattening target R, which it never sees; it succeeds with one
arm per grouped local variant, matching the same-named R variant, and any R
variant name outside the group is simply absent from the emitted case
analysis. -/
theorem c3_no_coverage_check {parseTP : String → Option TypePath} {inp : DeriveInput} {out : GenOutput}
    {k : PathOrLit} {locals : List String}
    (h : derive_compound_error parseTP inp = .ok out)
    (hk : (k, locals) ∈ out.fromEnums)
    (name : String) (hname : name ∉ locals) (x : ErrValue) :
    runInlineFrom locals (name, x) = none := by
  rw [runInlineFrom_mem, if_neg hname]

theorem c3_witness :
    runInlineFrom [("D" : String)] (("Q"), ErrValue.mk ("w2") none) = none := by
  have h : derive_compound_error parseSimple exIn3 =
      .ok (getOk (derive_compound_error parseSimple exIn3)) := rfl
  have hk : ((PathOrLit.path (mkPath ("RType"))), [("D" : String)]) ∈
      (getOk (derive_compound_error parseSimple exIn3)).fromEnums := by
    rw [show (getOk (derive_compound_error parseSimple exIn3)).fromEnums =
      [((PathOrLit.path (mkPath ("RType"))), [("D" : String)])] from rfl]
    exact List.mem_singleton.mpr rfl
  exact c3_no_coverage_check h hk ("Q") (by decide) (ErrValue.mk ("w2") none)

/-- The C4 counterexample input: variant A lists the bare path Foo, variant B
lists the string literal Foo; both have the same full textual form. -/
def exIn4 : DeriveInput :=
  { ident := "Bar", typeParams := [], attrs := [],
    data := InputData.enumData
      [attrVariant ("A") ("X")
        [NestedMeta.metaList (mkPath ("inline_from")) [NestedMeta.metaPath (mkPath ("Foo"))]],
       attrVariant ("B") ("Y")
        [NestedMeta.metaList (mkPath ("inline_from")) [NestedMeta.lit (Lit.str ("Foo"))]]] }

/-- C4 counterexample: a bare-path target Foo and a string-literal target
parsing to the very same path are nevertheless different grouping keys — the
two PathOrLit constructors never compare equal — so the input splits into two
flattening groups instead of the one group the claim requires for matching
textual forms. -/
theorem c4_counterexample :
    derive_compound_error parseSimple exIn4 = .ok (getOk (derive_compound_error parseSimple exIn4)) ∧
    (mkTypePath ("Foo")).path = mkPath ("Foo") ∧
    (getOk (derive_compound_error parseSimple exIn4)).fromEnums =
      [(PathOrLit.path (mkPath ("Foo")), [("A" : String)]),
       (PathOrLit.lit (mkTypePath ("Foo")), [("B" : String)])] ∧
    (getOk (derive_compound_error parseSimple exIn4)).fromEnums.length = 2 ∧
    PathOrLit.path (mkPath ("Foo")) ≠ PathOrLit.lit (mkTypePath ("Foo")) := by
  refine ⟨rfl, rfl, rfl, rfl, ?_⟩
  intro hc
  cases hc

/-- C4 amended: grouping keys compare by the derived structural equality of
PathOrLit: two bare-path targets are the same key exactly when their paths
are equal, two string-literal targets exactly when their parsed type paths
are equal, and a bare-path target and a string-literal target are never the
same key, even when their textual forms match. -/
theorem c4_key_equality :
    (∀ p q : Path, (PathOrLit.path p = PathOrLit.path q) ↔ p = q) ∧
    (∀ tp tq : TypePath, (PathOrLit.lit tp = PathOrLit.lit tq) ↔ tp = tq) ∧
    (∀ (p : Path) (tq : TypePath), PathOrLit.path p ≠ PathOrLit.lit tq) := by
  refine ⟨?_, ?_, ?_⟩
  · intro p q
    constructor
    · intro hc
      cases hc
      rfl
    · intro hc
      rw [hc]
  · intro tp tq
    constructor
    · intro hc
      cases hc
      rfl
    · intro hc
      rw [hc]
  · intro p tq hc
    cases hc

end CompoundError
